import Mathlib

/-!
Verification of the hotspot-delineation scripts
(`src/Code/Hotspot_delineation.py`, `src/Code/Hotspots_delineation.py`).

The raster is embedded as a finite grid of optional integer cell values
(`none` is the NoData sentinel).  The ArcPy spatial-analyst primitives used
by the scripts (`Reclassify`/`RemapRange`, `RegionGroup`/`SetNull`,
`Con`/`IsNull`, `ZonalStatisticsAsTable`) are external collaborators; they
are modelled here by their documented cell-level semantics, and the
repository's own functions and the threshold-search loop are translated
from the Python source on top of them.
-/

set_option maxHeartbeats 1000000

/-- A raster grid: `h × w` cells, each either a numeric value or NoData
(`none`).  Spatial-reference metadata is opaque to the algorithm and is
omitted. -/
structure Grid where
  h : ℕ
  w : ℕ
  val : Fin h → Fin w → Option ℤ

/-- Positions (cells) of a grid. -/
abbrev Pos (g : Grid) := Fin g.h × Fin g.w

/-- Cell value at a position. -/
def gval (g : Grid) (p : Pos g) : Option ℤ := g.val p.1 p.2

section ReachClosure

variable {α : Type} [Fintype α] [DecidableEq α] (r : α → α → Prop) [DecidableRel r]

/-- One step of reachability saturation: add every element related from the
current set. -/
def expandRel (s : Finset α) : Finset α :=
  s ∪ Finset.univ.filter (fun q => ∃ p ∈ s, r p q)

/-- The set of elements reachable from `a`, computed by saturating for
`Fintype.card α` rounds. -/
def reachSet (a : α) : Finset α := (expandRel r)^[Fintype.card α] {a}

theorem subset_expandRel (s : Finset α) : s ⊆ expandRel r s :=
  Finset.subset_union_left

theorem mem_expandRel {s : Finset α} {q : α} :
    q ∈ expandRel r s ↔ q ∈ s ∨ ∃ p ∈ s, r p q := by
  simp [expandRel]

theorem reach_of_mem_iterate (a : α) :
    ∀ k, ∀ q ∈ (expandRel r)^[k] ({a} : Finset α), Relation.ReflTransGen r a q := by
  intro k
  induction k with
  | zero =>
    intro q hq
    simp only [Function.iterate_zero, id, Finset.mem_singleton] at hq
    exact hq ▸ Relation.ReflTransGen.refl
  | succ n ih =>
    intro q hq
    rw [Function.iterate_succ_apply'] at hq
    rcases (mem_expandRel r).1 hq with h | ⟨p, hp, hr⟩
    · exact ih q h
    · exact (ih p hp).tail hr

theorem iterate_expandRel_mono (s : Finset α) {k m : ℕ} (h : k ≤ m) :
    (expandRel r)^[k] s ⊆ (expandRel r)^[m] s := by
  induction m with
  | zero =>
    have : k = 0 := Nat.le_zero.mp h
    simp [this]
  | succ n ih =>
    rcases Nat.lt_or_ge k (n + 1) with hk | hk
    · refine (ih (Nat.lt_succ_iff.mp hk)).trans ?_
      rw [Function.iterate_succ_apply']
      exact subset_expandRel r _
    · have : k = n + 1 := le_antisymm h hk
      simp [this]

theorem exists_iterate_expandRel_fix (a : α) :
    ∃ k ≤ Fintype.card α,
      (expandRel r)^[k + 1] ({a} : Finset α) = (expandRel r)^[k] ({a} : Finset α) := by
  by_contra hcon
  push_neg at hcon
  have hgrow : ∀ k, k ≤ Fintype.card α + 1 →
      k + 1 ≤ ((expandRel r)^[k] ({a} : Finset α)).card := by
    intro k
    induction k with
    | zero => intro _; simp
    | succ n ih =>
      intro hn
      have hn' : n ≤ Fintype.card α := by omega
      have hne := hcon n hn'
      have hsub : (expandRel r)^[n] ({a} : Finset α) ⊆
          (expandRel r)^[n + 1] ({a} : Finset α) :=
        iterate_expandRel_mono r _ (Nat.le_succ n)
      have hss : (expandRel r)^[n] ({a} : Finset α) ⊂
          (expandRel r)^[n + 1] ({a} : Finset α) := ⟨hsub, fun h2 => hne (le_antisymm h2 hsub)⟩
      have := Finset.card_lt_card hss
      have hrec := ih (by omega)
      omega
  have hbig := hgrow (Fintype.card α + 1) le_rfl
  have hle : ((expandRel r)^[Fintype.card α + 1] ({a} : Finset α)).card ≤ Fintype.card α :=
    Finset.card_le_univ _
  omega

theorem expandRel_reachSet (a : α) :
    expandRel r (reachSet r a) = reachSet r a := by
  obtain ⟨k, hk, hfix⟩ := exists_iterate_expandRel_fix r a
  have hstab : ∀ m, k ≤ m →
      (expandRel r)^[m] ({a} : Finset α) = (expandRel r)^[k] ({a} : Finset α) := by
    intro m hm
    induction m with
    | zero =>
      have : k = 0 := Nat.le_zero.mp hm
      simp [this]
    | succ n ih =>
      rcases Nat.lt_or_ge k (n + 1) with hlt | hge
      · have hkn : k ≤ n := Nat.lt_succ_iff.mp hlt
        rw [Function.iterate_succ_apply', ih hkn]
        exact (Function.iterate_succ_apply' (expandRel r) k {a}).symm.trans hfix
      · have : k = n + 1 := le_antisymm hm hge
        simp [this]
  have h1 : reachSet r a = (expandRel r)^[k] ({a} : Finset α) := hstab _ hk
  calc expandRel r (reachSet r a)
      = (expandRel r)^[Fintype.card α + 1] ({a} : Finset α) := by
        rw [Function.iterate_succ_apply', h1, ← hstab _ hk]
    _ = (expandRel r)^[k] ({a} : Finset α) := hstab _ (by omega)
    _ = reachSet r a := h1.symm

/-- Membership in the saturated set coincides with reflexive-transitive
reachability. -/
theorem mem_reachSet {a q : α} :
    q ∈ reachSet r a ↔ Relation.ReflTransGen r a q := by
  constructor
  · exact reach_of_mem_iterate r a _ q
  · intro h
    induction h with
    | refl =>
      exact iterate_expandRel_mono r _ (Nat.zero_le _) (by simp)
    | tail hab hbc ih =>
      have h2 := (mem_expandRel r).2 (Or.inr ⟨_, ih, hbc⟩)
      rwa [expandRel_reachSet] at h2

end ReachClosure

/-- Two cells are 8-connected neighbours: distinct, and row and column each
differ by at most one.  This is the `"EIGHT"` connectivity of
`arcpy.sa.RegionGroup`. -/
def adjacent (g : Grid) (p q : Pos g) : Prop :=
  p ≠ q ∧ Nat.dist p.1.val q.1.val ≤ 1 ∧ Nat.dist p.2.val q.2.val ≤ 1

instance (g : Grid) (p q : Pos g) : Decidable (adjacent g p q) :=
  decidable_of_iff
    (p ≠ q ∧ Nat.dist p.1.val q.1.val ≤ 1 ∧ Nat.dist p.2.val q.2.val ≤ 1) Iff.rfl

/-- One step of the `RegionGroup` `"WITHIN"` relation: 8-adjacent valid
cells carrying the same value belong to the same region. -/
def link (g : Grid) (p q : Pos g) : Prop :=
  adjacent g p q ∧ gval g p ≠ none ∧ gval g p = gval g q

instance (g : Grid) : DecidableRel (link g) := fun p q =>
  decidable_of_iff (adjacent g p q ∧ gval g p ≠ none ∧ gval g p = gval g q) Iff.rfl

/-- Region membership: reflexive-transitive closure of `link`. -/
def reach (g : Grid) (p q : Pos g) : Prop := Relation.ReflTransGen (link g) p q

instance (g : Grid) : DecidableRel (reach g) := fun p q =>
  decidable_of_iff (q ∈ reachSet (link g) p) (mem_reachSet (link g))

/-- The region (connected component under 8-connectivity among equal-valued
cells) of a cell, as a finite set. -/
def component (g : Grid) (p : Pos g) : Finset (Pos g) :=
  Finset.univ.filter (fun q => reach g p q)

/-- The `Count` attribute `RegionGroup` attaches to the region of cell `p`:
the number of cells of that region, computed by saturation. -/
def regionCount (g : Grid) (p : Pos g) : ℕ := (reachSet (link g) p).card

theorem reachSet_eq_component (g : Grid) (p : Pos g) :
    reachSet (link g) p = component g p := by
  ext q
  simp [component, mem_reachSet, reach]

theorem regionCount_eq_card_component (g : Grid) (p : Pos g) :
    regionCount g p = (component g p).card := by
  rw [regionCount, reachSet_eq_component]

theorem link_symm (g : Grid) : Symmetric (link g) := by
  intro p q ⟨⟨hne, hr, hc⟩, hv, he⟩
  exact ⟨⟨fun h => hne h.symm, by rwa [Nat.dist_comm], by rwa [Nat.dist_comm]⟩,
    by rw [← he]; exact hv, he.symm⟩

theorem reach_symm (g : Grid) : Symmetric (reach g) := by
  intro p q h
  induction h with
  | refl => exact Relation.ReflTransGen.refl
  | tail hab hbc ih =>
    exact Relation.ReflTransGen.head (link_symm g hbc) ih

theorem reach_trans (g : Grid) {p q s : Pos g} (h1 : reach g p q) (h2 : reach g q s) :
    reach g p s := Relation.ReflTransGen.trans h1 h2

/-- Embedding of `arcpy.sa.Reclassify(raster, "Value",
RemapRange([[threshold, maxValue, 1]]), "NODATA")` (source lines 136-139):
values in the inclusive range `[threshold, maxValue]` become `1`, every
other cell — NoData inputs included — becomes NoData. -/
def reclassify (g : Grid) (threshold maxValue : ℤ) : Grid :=
  ⟨g.h, g.w, fun i j =>
    match g.val i j with
    | none => none
    | some v => if threshold ≤ v ∧ v ≤ maxValue then some 1 else none⟩

/-- Embedding of `eliminate_isolated_pixels`, generalised over the minimum
region size: `RegionGroup(raster, "EIGHT", "WITHIN", "ADD_LINK")` followed
by `SetNull(region_group_raster, raster, "Count < minSize")`.  A valid cell
whose region has fewer than `minSize` cells becomes NoData; other valid
cells keep their value; NoData stays NoData. -/
def eliminateIsolatedPixelsWith (minSize : ℕ) (g : Grid) : Grid :=
  ⟨g.h, g.w, fun i j =>
    match g.val i j with
    | none => none
    | some v => if regionCount g (i, j) < minSize then none else some v⟩

/-- The source's `eliminate_isolated_pixels` (lines 71-75), with the
hard-coded `"Count < 1000"` clause. -/
def eliminate_isolated_pixels (g : Grid) : Grid := eliminateIsolatedPixelsWith 1000 g

/-- Embedding of `create_valid_pixel_mask` (lines 47-52):
`Con(IsNull(raster) == 0, valid_value)` with `valid_value = 1` — valid cells
become `1`, NoData cells stay NoData. -/
def create_valid_pixel_mask (g : Grid) : Grid :=
  ⟨g.h, g.w, fun i j => (g.val i j).map (fun _ => 1)⟩

/-- Cell lookup by natural coordinates; out-of-range coordinates read as
NoData.  Used to compare grids of a priori different dimensions. -/
def atNat (g : Grid) (rc : ℕ × ℕ) : Option ℤ :=
  if hr : rc.1 < g.h then
    if hc : rc.2 < g.w then g.val ⟨rc.1, hr⟩ ⟨rc.2, hc⟩ else none
  else none

/-- Embedding of the `ZonalStatisticsAsTable(mask, "VALUE", cleaned, …,
"DATA", "ALL")` count summed over all zones in `calculate_coverage`: the
number of cells of `cleaned` that carry data and fall inside a data cell of
the zone raster `mask`. -/
def highRichnessPixels (mask cleaned : Grid) : ℕ :=
  (Finset.univ.filter (fun p : Pos cleaned =>
    gval cleaned p ≠ none ∧ atNat mask (p.1.val, p.2.val) ≠ none)).card

/-- Embedding of `calculate_coverage` (lines 77-89):
`(high_richness_pixels / float(total_valid_pixels)) * 100` when
`total_valid_pixels > 0`, else `0`. -/
def calculate_coverage (cleaned : Grid) (total_valid_pixels : ℤ) (mask : Grid) : ℚ :=
  if 0 < total_valid_pixels then
    ((highRichnessPixels mask cleaned : ℚ) / (total_valid_pixels : ℚ)) * 100
  else 0

/-- Number of cells classified as hotspot (value `1`). -/
def hotspotCount (g : Grid) : ℕ :=
  (Finset.univ.filter (fun p : Pos g => gval g p = some 1)).card

/-- A grid is binary when every cell is `1` or NoData. -/
def Binary (g : Grid) : Prop :=
  ∀ i j, g.val i j = none ∨ g.val i j = some 1

instance (g : Grid) : Decidable (Binary g) := by
  unfold Binary
  infer_instance

/-- Embedding of the candidate-generation loop (lines 120-126):
`threshold_range = [initial_threshold]`, then for `i = 1 .. max_iterations`
append `initial_threshold + i` and `initial_threshold - i`. -/
def threshold_range (initial_threshold : ℤ) (max_iterations : ℕ) : List ℤ :=
  (List.range' 1 max_iterations).foldl
    (fun acc (i : ℕ) => acc ++ [initial_threshold + (i : ℤ), initial_threshold - (i : ℤ)])
    [initial_threshold]

/-- The loop state of the threshold search (lines 128-133): the running
`(closest_coverage, closest_threshold)` pair — `none` standing for the
initial `(float('inf'), None)` — and the accumulated `threshold_results`
list of `(threshold, coverage, cleaned_raster)` triples. -/
structure SearchState where
  closest : Option (ℚ × ℤ)
  results : List (ℤ × ℚ × Grid)

/-- One iteration of the `for threshold in threshold_range` loop
(lines 136-161).  The per-candidate evaluation `f` returns `none` when the
`try` body raises, in which case the candidate is skipped (the `except`
branch only logs) and the state is unchanged; otherwise the result is
appended and the running closest pair is updated when the new coverage is
strictly closer to the target. -/
def searchStep (target : ℚ) (f : ℤ → Option (ℚ × Grid))
    (st : SearchState) (t : ℤ) : SearchState :=
  match f t with
  | none => st
  | some (cov, g) =>
    { closest :=
        match st.closest with
        | none => some (cov, t)
        | some (cc, ct) =>
          if |cov - target| < |cc - target| then some (cov, t) else some (cc, ct)
      results := st.results ++ [(t, cov, g)] }

/-- The whole candidate loop, started from the empty state. -/
def runSearch (target : ℚ) (f : ℤ → Option (ℚ × Grid)) (ts : List ℤ) : SearchState :=
  ts.foldl (searchStep target f) ⟨none, []⟩

/-- Embedding of the final selection (lines 163-172): if
`closest_threshold is not None`, scan `threshold_results` for the first
entry with that threshold and emit its raster; otherwise the run is
unresolved and no grid is emitted (`none`). -/
def selectSaved (target : ℚ) (f : ℤ → Option (ℚ × Grid)) (ts : List ℤ) : Option Grid :=
  match (runSearch target f ts).closest with
  | none => none
  | some (_, ct) =>
    ((runSearch target f ts).results.find? (fun r => decide (r.1 = ct))).map
      (fun r => r.2.2)

/-- The successfully evaluated candidates, in generation order. -/
def succs (f : ℤ → Option (ℚ × Grid)) (ts : List ℤ) : List (ℤ × ℚ × Grid) :=
  ts.filterMap (fun t => (f t).map (fun p => (t, p.1, p.2)))

/-- The body of one search iteration when no step raises (lines 136-153):
reclassify at the candidate threshold, remove isolated pixels, derive a
fresh valid-pixel mask from the cleaned raster, and compute the coverage
against the fixed `total_valid_pixels` denominator.  Returns the
`(coverage, cleaned_raster)` pair recorded for the candidate. -/
def evalThreshold (richness : Grid) (highest : ℤ) (total_valid_pixels : ℤ)
    (t : ℤ) : ℚ × Grid :=
  let reclassified := reclassify richness t highest
  let cleaned := eliminate_isolated_pixels reclassified
  let mask := create_valid_pixel_mask cleaned
  (calculate_coverage cleaned total_valid_pixels mask, cleaned)

/-- Outcome of `save_final_raster`: the error surfaced to the caller (if
any), the error messages logged, and how many write attempts were made. -/
structure SaveOutcome where
  raised : Option String
  logged : List String
  attempts : ℕ
  deriving DecidableEq

/-- Embedding of `save_final_raster` (lines 91-98): one `save` call inside
`try`; on failure the `except` branch logs the error and returns normally,
so no error ever reaches the caller and the write is not retried. -/
def save_final_raster (write : Grid → Except String Unit) (g : Grid) : SaveOutcome :=
  match write g with
  | Except.ok _ => ⟨none, [], 1⟩
  | Except.error e => ⟨none, [e], 1⟩

theorem threshold_range_zero (t0 : ℤ) : threshold_range t0 0 = [t0] := rfl

theorem threshold_range_succ (t0 : ℤ) (m : ℕ) :
    threshold_range t0 (m + 1) =
      threshold_range t0 m ++ [t0 + ((m : ℤ) + 1), t0 - ((m : ℤ) + 1)] := by
  unfold threshold_range
  rw [List.range'_1_concat, List.foldl_append]
  simp only [List.foldl_cons, List.foldl_nil]
  have hc : ((1 + m : ℕ) : ℤ) = (m : ℤ) + 1 := by push_cast; ring
  rw [hc]

theorem threshold_range_length (t0 : ℤ) (m : ℕ) :
    (threshold_range t0 m).length = 2 * m + 1 := by
  induction m with
  | zero => rfl
  | succ n ih =>
    rw [threshold_range_succ, List.length_append, ih]
    simp
    omega

theorem mem_threshold_range {t0 : ℤ} {m : ℕ} {x : ℤ} :
    x ∈ threshold_range t0 m ↔ |x - t0| ≤ (m : ℤ) := by
  induction m with
  | zero =>
    rw [threshold_range_zero]
    simp only [List.mem_singleton, Nat.cast_zero]
    rw [abs_le]
    omega
  | succ n ih =>
    rw [threshold_range_succ, List.mem_append, ih]
    simp only [List.mem_cons, List.mem_singleton, List.not_mem_nil, or_false]
    rw [abs_le, abs_le]
    push_cast
    omega

theorem threshold_range_nodup (t0 : ℤ) (m : ℕ) : (threshold_range t0 m).Nodup := by
  induction m with
  | zero =>
    rw [threshold_range_zero]
    exact List.nodup_singleton t0
  | succ n ih =>
    rw [threshold_range_succ]
    refine List.Nodup.append ih ?_ ?_
    · simp only [List.nodup_cons, List.mem_singleton, List.not_mem_nil,
        not_false_iff, List.nodup_singleton, and_true]
      exact ⟨by omega, trivial, List.nodup_nil⟩
    · intro x hx hx'
      rw [mem_threshold_range] at hx
      simp only [List.mem_cons, List.mem_singleton, List.not_mem_nil, or_false] at hx'
      rw [abs_le] at hx
      rcases hx' with h | h <;> omega

/-- C2: the candidate generation step produces exactly the interleaved
sequence `t0, t0+1, t0-1, …, t0+m, t0-m` (ascending offset), of length
`2*m + 1`: the list has that length, its head is `t0`, and for every
`i = 1..m` the element at position `2*i - 1` is `t0 + i` and the element at
position `2*i` is `t0 - i`. -/
theorem candidate_generation (t0 : ℤ) (m : ℕ) :
    (threshold_range t0 m).length = 2 * m + 1 ∧
    (threshold_range t0 m)[0]? = some t0 ∧
    ∀ i : ℕ, 1 ≤ i → i ≤ m →
      (threshold_range t0 m)[2 * i - 1]? = some (t0 + (i : ℤ)) ∧
      (threshold_range t0 m)[2 * i]? = some (t0 - (i : ℤ)) := by
  refine ⟨threshold_range_length t0 m, ?_, ?_⟩
  · induction m with
    | zero => rfl
    | succ n ih =>
      rw [threshold_range_succ]
      rw [List.getElem?_append_left (by rw [threshold_range_length]; omega)]
      exact ih
  · induction m with
    | zero => intro i h1 h2; omega
    | succ n ih =>
      intro i h1 h2
      rcases Nat.lt_or_ge i (n + 1) with hlt | hge
      · have hi : i ≤ n := by omega
        rw [threshold_range_succ]
        rw [List.getElem?_append_left (by rw [threshold_range_length]; omega),
          List.getElem?_append_left (by rw [threshold_range_length]; omega)]
        exact ih i h1 hi
      · have hieq : i = n + 1 := by omega
        subst hieq
        rw [threshold_range_succ]
        constructor
        · rw [List.getElem?_append_right (by rw [threshold_range_length]; omega)]
          rw [threshold_range_length]
          have hidx : 2 * (n + 1) - 1 - (2 * n + 1) = 0 := by omega
          rw [hidx]
          simp only [List.getElem?_cons_zero, Option.some.injEq]
          push_cast
          ring
        · rw [List.getElem?_append_right (by rw [threshold_range_length]; omega)]
          rw [threshold_range_length]
          have hidx : 2 * (n + 1) - (2 * n + 1) = 1 := by omega
          rw [hidx]
          simp only [List.getElem?_cons_succ, List.getElem?_cons_zero, Option.some.injEq]
          push_cast
          ring

/-- Witness for C2 at the spec's end-to-end example `t0 = 50`,
`max_iterations = 2`: position 1 holds `51`. -/
theorem candidate_generation_witness :
    (1 : ℕ) ≤ 1 ∧ (1 : ℕ) ≤ 2 ∧ (threshold_range 50 2)[2 * 1 - 1]? = some (50 + (1 : ℤ)) :=
  ⟨le_rfl, by omega, ((candidate_generation 50 2).2.2 1 le_rfl (by omega)).1⟩

theorem reclassify_val (g : Grid) (t hi : ℤ) (i : Fin g.h) (j : Fin g.w) :
    (reclassify g t hi).val i j =
      match g.val i j with
      | none => none
      | some v => if t ≤ v ∧ v ≤ hi then some 1 else none := rfl

theorem eliminateWith_val (m : ℕ) (g : Grid) (i : Fin g.h) (j : Fin g.w) :
    (eliminateIsolatedPixelsWith m g).val i j =
      match g.val i j with
      | none => none
      | some v => if regionCount g (i, j) < m then none else some v := rfl

/-- C7: reclassification maps every cell with value in the inclusive range
`[threshold, maxValue]` to `1`, and every other cell — NoData inputs and
out-of-range values alike — to NoData. -/
theorem reclassify_spec (g : Grid) (t hi : ℤ) (i : Fin g.h) (j : Fin g.w) :
    (∀ v : ℤ, g.val i j = some v → t ≤ v → v ≤ hi →
      (reclassify g t hi).val i j = some 1) ∧
    (∀ v : ℤ, g.val i j = some v → (v < t ∨ hi < v) →
      (reclassify g t hi).val i j = none) ∧
    (g.val i j = none → (reclassify g t hi).val i j = none) := by
  refine ⟨?_, ?_, ?_⟩
  · intro v hv h1 h2
    rw [reclassify_val, hv]
    simp [h1, h2]
  · intro v hv hout
    rw [reclassify_val, hv]
    have hc : ¬ (t ≤ v ∧ v ≤ hi) := by rcases hout with h | h <;> omega
    simp [hc]
  · intro hv
    rw [reclassify_val, hv]

/-- Witness for C7 on a 1×1 grid holding value `7` with range `[5, 10]`. -/
theorem reclassify_spec_witness :
    (reclassify ⟨1, 1, fun _ _ => some 7⟩ 5 10).val ⟨0, by decide⟩ ⟨0, by decide⟩ = some 1 :=
  (reclassify_spec ⟨1, 1, fun _ _ => some 7⟩ 5 10 ⟨0, by decide⟩ ⟨0, by decide⟩).1 7 rfl
    (by decide) (by decide)

/-- C8: raising the threshold never increases the pre-filter hotspot cell
count. -/
theorem reclassify_monotone (g : Grid) (hi t1 t2 : ℤ) (h : t1 ≤ t2) :
    hotspotCount (reclassify g t2 hi) ≤ hotspotCount (reclassify g t1 hi) := by
  apply Finset.card_le_card
  intro p hp
  simp only [Finset.mem_filter, Finset.mem_univ, true_and, gval] at hp ⊢
  cases hg : g.val p.1 p.2 with
  | none =>
    rw [reclassify_val, hg] at hp
    exact absurd hp (by simp)
  | some v =>
    rw [reclassify_val, hg] at hp
    rw [reclassify_val, hg]
    by_cases h2 : t2 ≤ v ∧ v ≤ hi
    · have h1 : t1 ≤ v ∧ v ≤ hi := ⟨le_trans h h2.1, h2.2⟩
      simp [h1]
    · simp [h2] at hp

/-- Witness for C8 on a 1×1 grid with value `7`, thresholds `5 ≤ 8`. -/
theorem reclassify_monotone_witness :
    hotspotCount (reclassify ⟨1, 1, fun _ _ => some 7⟩ 8 10) ≤
      hotspotCount (reclassify ⟨1, 1, fun _ _ => some 7⟩ 5 10) :=
  reclassify_monotone ⟨1, 1, fun _ _ => some 7⟩ 10 5 8 (by decide)

theorem reclassify_binary (g : Grid) (t hi : ℤ) : Binary (reclassify g t hi) := by
  intro i j
  rw [reclassify_val]
  cases g.val i j with
  | none => exact Or.inl rfl
  | some v =>
    by_cases hc : t ≤ v ∧ v ≤ hi
    · simp [hc]
    · simp [hc]

theorem eliminateWith_binary (m : ℕ) (g : Grid) (hb : Binary g) :
    Binary (eliminateIsolatedPixelsWith m g) := by
  intro i j
  rw [eliminateWith_val]
  rcases hb i j with hv | hv <;> rw [hv]
  · exact Or.inl rfl
  · by_cases hc : regionCount g (i, j) < m
    · simp [hc]
    · simp [hc]

theorem highRichnessPixels_self_mask (c : Grid) :
    highRichnessPixels (create_valid_pixel_mask c) c =
      (Finset.univ.filter (fun p : Pos c => gval c p ≠ none)).card := by
  unfold highRichnessPixels
  congr 1
  apply Finset.filter_congr
  intro p _
  have hmask : atNat (create_valid_pixel_mask c) (p.1.val, p.2.val) =
      (gval c p).map (fun _ => 1) := by
    unfold atNat create_valid_pixel_mask gval
    simp [p.1.isLt, p.2.isLt]
  rw [hmask]
  cases gval c p <;> simp

theorem binary_valid_card_eq_hotspotCount (c : Grid) (hb : Binary c) :
    (Finset.univ.filter (fun p : Pos c => gval c p ≠ none)).card = hotspotCount c := by
  unfold hotspotCount
  congr 1
  apply Finset.filter_congr
  intro p _
  rcases hb p.1 p.2 with hv | hv <;> simp [gval, hv]

/-- C10: both grids produced inside a search iteration — the reclassified
grid and the component-filtered grid — are binary (every cell `1` or
NoData), and the coverage numerator obtained from the filtered grid through
its freshly derived valid-pixel mask equals that grid's hotspot cell
count. -/
theorem iteration_grids_binary (richness : Grid) (hi t : ℤ) :
    Binary (reclassify richness t hi) ∧
    Binary (eliminate_isolated_pixels (reclassify richness t hi)) ∧
    highRichnessPixels
        (create_valid_pixel_mask (eliminate_isolated_pixels (reclassify richness t hi)))
        (eliminate_isolated_pixels (reclassify richness t hi)) =
      hotspotCount (eliminate_isolated_pixels (reclassify richness t hi)) := by
  have h1 : Binary (reclassify richness t hi) := reclassify_binary richness t hi
  have h2 : Binary (eliminate_isolated_pixels (reclassify richness t hi)) :=
    eliminateWith_binary 1000 _ h1
  exact ⟨h1, h2,
    (highRichnessPixels_self_mask _).trans (binary_valid_card_eq_hotspotCount _ h2)⟩

theorem foldl_searchStep_results (target : ℚ) (f : ℤ → Option (ℚ × Grid))
    (ts : List ℤ) :
    ∀ st : SearchState, (ts.foldl (searchStep target f) st).results =
      st.results ++ succs f ts := by
  induction ts with
  | nil => intro st; simp [succs]
  | cons t ts ih =>
    intro st
    rw [List.foldl_cons, ih]
    cases hf : f t with
    | none => simp [searchStep, hf, succs]
    | some p => simp [searchStep, hf, succs]

theorem runSearch_results (target : ℚ) (f : ℤ → Option (ℚ × Grid)) (ts : List ℤ) :
    (runSearch target f ts).results = succs f ts := by
  unfold runSearch
  rw [foldl_searchStep_results]
  rfl

/-- One-cell all-valid grid used by concrete witnesses. -/
def gUnit : Grid := ⟨1, 1, fun _ _ => some 1⟩

/-- C3: the coverage evaluator returns
`count(filtered == 1) / total_valid_pixels * 100` for a positive
denominator and `0` otherwise; and in every search iteration the recorded
coverage is computed against the `total_valid_pixels` value passed into the
run — the same fixed denominator for all candidates — never against a count
recomputed from the filtered grid's own mask. -/
theorem coverage_spec (cleaned : Grid) (tvp : ℤ) (hb : Binary cleaned) :
    (0 < tvp → calculate_coverage cleaned tvp (create_valid_pixel_mask cleaned) =
      (hotspotCount cleaned : ℚ) / (tvp : ℚ) * 100) ∧
    (tvp ≤ 0 → calculate_coverage cleaned tvp (create_valid_pixel_mask cleaned) = 0) ∧
    (∀ (richness : Grid) (hi : ℤ) (target : ℚ) (t0 : ℤ) (m : ℕ),
      ∀ c ∈ (runSearch target (fun t => some (evalThreshold richness hi tvp t))
          (threshold_range t0 m)).results,
        c.2.1 = calculate_coverage c.2.2 tvp (create_valid_pixel_mask c.2.2)) := by
  refine ⟨?_, ?_, ?_⟩
  · intro hpos
    unfold calculate_coverage
    rw [if_pos hpos, highRichnessPixels_self_mask,
      binary_valid_card_eq_hotspotCount _ hb]
  · intro hneg
    unfold calculate_coverage
    rw [if_neg (by omega)]
  · intro richness hi target t0 m c hc
    rw [runSearch_results] at hc
    unfold succs at hc
    rw [List.mem_filterMap] at hc
    obtain ⟨t, _, heq⟩ := hc
    rw [Option.map_some'] at heq
    cases heq
    rfl

/-- Witness for C3 on the one-cell grid with denominator `2`. -/
theorem coverage_spec_witness :
    calculate_coverage gUnit 2 (create_valid_pixel_mask gUnit) =
      (hotspotCount gUnit : ℚ) / (2 : ℚ) * 100 :=
  (coverage_spec gUnit 2 (by decide)).1 (by decide)

theorem Grid.mk_inj {h w : ℕ} {v v' : Fin h → Fin w → Option ℤ} (hv : v = v') :
    Grid.mk h w v = Grid.mk h w v' := by rw [hv]

theorem reclassify_binary_id (g : Grid) (hb : Binary g) (t hi : ℤ)
    (ht : t ≤ 1) (hhi : 1 ≤ hi) : reclassify g t hi = g := by
  unfold reclassify
  apply Grid.mk_inj
  funext i j
  rcases hb i j with hv | hv <;> rw [hv]
  simp [ht, hhi]

theorem eliminateWith_id (m : ℕ) (g : Grid)
    (hsize : ∀ (i : Fin g.h) (j : Fin g.w), g.val i j ≠ none → m ≤ regionCount g (i, j)) :
    eliminateIsolatedPixelsWith m g = g := by
  unfold eliminateIsolatedPixelsWith
  apply Grid.mk_inj
  funext i j
  cases hv : g.val i j with
  | none => rfl
  | some v0 =>
    have hvr : g.val i j ≠ none := by
      rw [hv]
      exact fun hx => Option.noConfusion hx
    have := hsize i j hvr
    show (if regionCount g (i, j) < m then none else some v0) = some v0
    rw [if_neg (by omega)]

/-- C9: an already-binary grid in which every valid cell's region meets the
minimum size, reclassified with a threshold range admitting value `1` and
filtered again with the same minimum size, comes back unchanged. -/
theorem idempotence (minSize : ℕ) (g : Grid) (t hi : ℤ) (hb : Binary g)
    (hfiltered : ∀ (i : Fin g.h) (j : Fin g.w),
      g.val i j ≠ none → minSize ≤ regionCount g (i, j))
    (ht : t ≤ 1) (hhi : 1 ≤ hi) :
    eliminateIsolatedPixelsWith minSize (reclassify g t hi) = g := by
  rw [reclassify_binary_id g hb t hi ht hhi]
  exact eliminateWith_id minSize g hfiltered

/-- Witness for C9 on the one-cell grid with `min_component_size = 1`. -/
theorem idempotence_witness :
    eliminateIsolatedPixelsWith 1 (reclassify gUnit 1 1) = gUnit :=
  idempotence 1 gUnit 1 1 (by decide) (by decide) (by decide) (by decide)

/-- Counterexample to C6: with a writer that fails with an IOError
("disk full"), `save_final_raster` surfaces no error to its caller — the
`except` branch swallows it after logging — so the error is not propagated
unchanged as the claim states. -/
theorem save_error_not_propagated :
    (save_final_raster (fun _ => Except.error "disk full") gUnit).raised = none ∧
    ¬ (save_final_raster (fun _ => Except.error "disk full") gUnit).raised =
        some "disk full" := ⟨rfl, by decide⟩

/-- C6 amended: when writing the selected output grid fails with an
IOError, the error is caught and logged inside `save_final_raster` and is
not propagated to the caller; the write is attempted exactly once (no
retry), and a successful write logs no error. -/
theorem save_error_swallowed (write : Grid → Except String Unit) (g : Grid) :
    (save_final_raster write g).raised = none ∧
    (save_final_raster write g).attempts = 1 ∧
    (∀ e, write g = Except.error e → (save_final_raster write g).logged = [e]) ∧
    (write g = Except.ok () → (save_final_raster write g).logged = []) := by
  cases hw : write g with
  | ok u =>
    cases u
    refine ⟨by simp [save_final_raster, hw], by simp [save_final_raster, hw], ?_, ?_⟩
    · intro e he
      exact absurd he (by simp)
    · intro _
      simp [save_final_raster, hw]
  | error e0 =>
    refine ⟨by simp [save_final_raster, hw], by simp [save_final_raster, hw], ?_, ?_⟩
    · intro e he
      injection he with h
      subst h
      simp [save_final_raster, hw]
    · intro hok
      exact absurd hok (by simp)

/-- Witness for the amended C6: the failing write's message is logged. -/
theorem save_error_swallowed_witness :
    (save_final_raster (fun _ => Except.error "e1") gUnit).logged = ["e1"] :=
  (save_error_swallowed (fun _ => Except.error "e1") gUnit).2.2.1 "e1" rfl

/-- The closest-candidate update, factored out of `searchStep`: what the
loop body does to the running `(closest_coverage, closest_threshold)` pair
for one successful candidate. -/
def bestStep (target : ℚ) (acc : Option (ℚ × ℤ)) (c : ℤ × ℚ × Grid) : Option (ℚ × ℤ) :=
  match acc with
  | none => some (c.2.1, c.1)
  | some (cc, ct) =>
    if |c.2.1 - target| < |cc - target| then some (c.2.1, c.1) else some (cc, ct)

theorem foldl_searchStep_closest (target : ℚ) (f : ℤ → Option (ℚ × Grid))
    (ts : List ℤ) :
    ∀ st : SearchState, (ts.foldl (searchStep target f) st).closest =
      (succs f ts).foldl (bestStep target) st.closest := by
  induction ts with
  | nil => intro st; simp [succs]
  | cons t ts ih =>
    intro st
    rw [List.foldl_cons, ih]
    cases hf : f t with
    | none => simp [searchStep, hf, succs]
    | some p =>
      simp only [succs, List.filterMap_cons, hf, Option.map_some', List.foldl_cons]
      congr 1
      simp only [searchStep, hf]
      cases st.closest with
      | none => rfl
      | some q => rfl

theorem runSearch_closest (target : ℚ) (f : ℤ → Option (ℚ × Grid)) (ts : List ℤ) :
    (runSearch target f ts).closest = (succs f ts).foldl (bestStep target) none := by
  unfold runSearch
  rw [foldl_searchStep_closest]

/-- Folding `bestStep` over a nonempty candidate list yields the earliest
candidate of minimal distance to the target: the list splits as
`pre ++ c :: post` with `c` the selected candidate, `c` minimal over the
whole list, and everything in `pre` strictly worse. -/
theorem foldl_bestStep_spec (target : ℚ) :
    ∀ l : List (ℤ × ℚ × Grid), l ≠ [] →
    ∃ pre c post, l = pre ++ c :: post ∧
      l.foldl (bestStep target) none = some (c.2.1, c.1) ∧
      (∀ x ∈ l, |c.2.1 - target| ≤ |x.2.1 - target|) ∧
      (∀ x ∈ pre, |c.2.1 - target| < |x.2.1 - target|) := by
  intro l
  induction l using List.reverseRecOn with
  | nil => intro h; exact absurd rfl h
  | append_singleton l c ih =>
    intro _
    rw [List.foldl_append, List.foldl_cons, List.foldl_nil]
    rcases eq_or_ne l [] with hl | hl
    · subst hl
      refine ⟨[], c, [], by simp, ?_, ?_, by simp⟩
      · simp [bestStep]
      · intro x hx
        simp only [List.nil_append, List.mem_singleton] at hx
        subst hx
        exact le_refl _
    · obtain ⟨pre, b, post, hdec, hfold, hmin, hstrict⟩ := ih hl
      rw [hfold]
      by_cases hlt : |c.2.1 - target| < |b.2.1 - target|
      · refine ⟨l, c, [], by simp, ?_, ?_, ?_⟩
        · simp [bestStep, hlt]
        · intro x hx
          rcases List.mem_append.1 hx with hx | hx
          · exact le_of_lt (lt_of_lt_of_le hlt (hmin x hx))
          · simp only [List.mem_singleton] at hx
            subst hx
            exact le_refl _
        · intro x hx
          exact lt_of_lt_of_le hlt (hmin x hx)
      · push_neg at hlt
        refine ⟨pre, b, post ++ [c], by rw [hdec]; simp, ?_, ?_, hstrict⟩
        · simp [bestStep, not_lt.2 hlt]
        · intro x hx
          rcases List.mem_append.1 hx with hx | hx
          · exact hmin x hx
          · simp only [List.mem_singleton] at hx
            subst hx
            exact hlt

theorem succs_eq_nil_iff (f : ℤ → Option (ℚ × Grid)) (ts : List ℤ) :
    succs f ts = [] ↔ ∀ t ∈ ts, f t = none := by
  unfold succs
  rw [List.filterMap_eq_nil_iff]
  constructor
  · intro h t ht
    have := h t ht
    rwa [Option.map_eq_none'] at this
  · intro h t ht
    rw [Option.map_eq_none']
    exact h t ht

theorem closest_none_iff (target : ℚ) (f : ℤ → Option (ℚ × Grid)) (ts : List ℤ) :
    (runSearch target f ts).closest = none ↔ succs f ts = [] := by
  rw [runSearch_closest]
  constructor
  · intro h
    by_contra hne
    obtain ⟨pre, c, post, _, hfold, _, _⟩ := foldl_bestStep_spec target _ hne
    rw [h] at hfold
    exact Option.noConfusion hfold
  · intro h
    rw [h]
    rfl

theorem succs_thresholds_sublist (f : ℤ → Option (ℚ × Grid)) (ts : List ℤ) :
    ((succs f ts).map (fun c => c.1)).Sublist ts := by
  induction ts with
  | nil => simp [succs]
  | cons t ts ih =>
    cases hf : f t with
    | none =>
      simp only [succs, List.filterMap_cons, hf]
      exact (List.Sublist.cons t) ih
    | some p =>
      simp only [succs, List.filterMap_cons, hf, Option.map_some', List.map_cons]
      exact List.Sublist.cons₂ t ih

theorem find?_first_in_decomposition {l pre post : List (ℤ × ℚ × Grid)}
    {c : ℤ × ℚ × Grid} (hdec : l = pre ++ c :: post)
    (hnd : (l.map (fun x => x.1)).Nodup) :
    l.find? (fun r => decide (r.1 = c.1)) = some c := by
  subst hdec
  induction pre with
  | nil =>
    rw [List.nil_append]
    apply List.find?_cons_of_pos
    simp
  | cons a pre ih =>
    rw [List.cons_append]
    rw [List.cons_append, List.map_cons, List.nodup_cons] at hnd
    have hane : ¬ a.1 = c.1 := by
      intro hac
      apply hnd.1
      rw [hac]
      apply List.mem_map_of_mem
      exact List.mem_append_right pre (List.mem_cons_self c post)
    rw [List.find?_cons_of_neg _ (by simpa using hane)]
    exact ih hnd.2

/-- C1: in any run of the threshold search over the generated candidate
list in which at least one candidate evaluates without error, the
successful candidates (in interleaved generation order) split as
`pre ++ c :: post` where `c` minimizes `|coverage − target|` over all
successful candidates, every earlier successful candidate is strictly
worse (so ties go to the earliest-generated candidate), and the grid
emitted for saving is exactly `c`'s resulting grid. -/
theorem selection_minimizes (target : ℚ) (f : ℤ → Option (ℚ × Grid)) (t0 : ℤ) (m : ℕ)
    (hex : ∃ t ∈ threshold_range t0 m, (f t).isSome) :
    ∃ pre c post,
      succs f (threshold_range t0 m) = pre ++ c :: post ∧
      (∀ x ∈ succs f (threshold_range t0 m), |c.2.1 - target| ≤ |x.2.1 - target|) ∧
      (∀ x ∈ pre, |c.2.1 - target| < |x.2.1 - target|) ∧
      selectSaved target f (threshold_range t0 m) = some c.2.2 := by
  obtain ⟨t, ht, hsome⟩ := hex
  have hne : succs f (threshold_range t0 m) ≠ [] := by
    intro h0
    rw [succs_eq_nil_iff] at h0
    rw [h0 t ht] at hsome
    simp at hsome
  obtain ⟨pre, c, post, hdec, hfold, hmin, hstrict⟩ := foldl_bestStep_spec target _ hne
  refine ⟨pre, c, post, hdec, hmin, hstrict, ?_⟩
  have hclosest : (runSearch target f (threshold_range t0 m)).closest =
      some (c.2.1, c.1) := by
    rw [runSearch_closest, hfold]
  have hnd : ((succs f (threshold_range t0 m)).map (fun x => x.1)).Nodup :=
    (threshold_range_nodup t0 m).sublist (succs_thresholds_sublist f _)
  unfold selectSaved
  rw [hclosest]
  simp only
  rw [runSearch_results, find?_first_in_decomposition hdec hnd]
  rfl

/-- Candidate evaluation used by the C1 witness: only threshold 50
succeeds. -/
def fWitness : ℤ → Option (ℚ × Grid) := fun t => if t = 50 then some (3, gUnit) else none

/-- Witness for C1 with the single-candidate run `threshold_range 50 0`. -/
theorem selection_minimizes_witness :
    ∃ pre c post,
      succs fWitness (threshold_range 50 0) = pre ++ c :: post ∧
      (∀ x ∈ succs fWitness (threshold_range 50 0),
        |c.2.1 - (5 : ℚ)| ≤ |x.2.1 - (5 : ℚ)|) ∧
      (∀ x ∈ pre, |c.2.1 - (5 : ℚ)| < |x.2.1 - (5 : ℚ)|) ∧
      selectSaved 5 fWitness (threshold_range 50 0) = some c.2.2 :=
  selection_minimizes 5 fWitness 50 0 ⟨50, by decide, by decide⟩

/-- C5: a candidate whose evaluation raises is skipped — the loop state is
unchanged and the loop proceeds; the run emits a saved grid exactly when at
least one candidate succeeded, and resolves to nothing (unresolved, no grid
emitted) exactly when every candidate failed. -/
theorem skip_and_terminal_states (target : ℚ) (f : ℤ → Option (ℚ × Grid))
    (ts : List ℤ) :
    (∀ (st : SearchState) (t : ℤ), f t = none → searchStep target f st t = st) ∧
    ((selectSaved target f ts).isSome ↔ ∃ t ∈ ts, (f t).isSome) ∧
    (selectSaved target f ts = none ↔ ∀ t ∈ ts, f t = none) := by
  have hmain : (selectSaved target f ts).isSome ↔ ∃ t ∈ ts, (f t).isSome := by
    constructor
    · intro hs
      by_contra hno
      push_neg at hno
      have hall : ∀ t ∈ ts, f t = none := by
        intro t ht
        exact Option.not_isSome_iff_eq_none.1 (hno t ht)
      have hcl : (runSearch target f ts).closest = none := by
        rw [closest_none_iff, succs_eq_nil_iff]
        exact hall
      unfold selectSaved at hs
      rw [hcl] at hs
      simp at hs
    · intro hex
      obtain ⟨t, ht, hsome⟩ := hex
      have hne : succs f ts ≠ [] := by
        intro h0
        rw [succs_eq_nil_iff] at h0
        rw [h0 t ht] at hsome
        simp at hsome
      obtain ⟨pre, c, post, hdec, hfold, _, _⟩ := foldl_bestStep_spec target _ hne
      have hclosest : (runSearch target f ts).closest = some (c.2.1, c.1) := by
        rw [runSearch_closest, hfold]
      unfold selectSaved
      rw [hclosest]
      simp only [Option.isSome_map']
      rw [List.find?_isSome, runSearch_results]
      exact ⟨c, by rw [hdec]; exact List.mem_append_right pre (List.mem_cons_self c post),
        by simp⟩
  refine ⟨?_, hmain, ?_⟩
  · intro st t h
    simp [searchStep, h]
  · constructor
    · intro h t ht
      by_contra hne
      have hsome : (f t).isSome := Option.ne_none_iff_isSome.1 hne
      have h2 := hmain.2 ⟨t, ht, hsome⟩
      rw [h] at h2
      simp at h2
    · intro hall
      cases hsel : selectSaved target f ts with
      | none => rfl
      | some g =>
        have h2 : (selectSaved target f ts).isSome := by rw [hsel]; rfl
        obtain ⟨t, ht, hsome⟩ := hmain.1 h2
        rw [hall t ht] at hsome
        simp at hsome

/-- Witness for C5: a failing candidate leaves the loop state unchanged. -/
theorem skip_and_terminal_states_witness :
    searchStep 5 (fun _ => (none : Option (ℚ × Grid))) ⟨none, []⟩ 7 = ⟨none, []⟩ :=
  (skip_and_terminal_states 5 (fun _ => none) []).1 ⟨none, []⟩ 7 rfl

theorem nat_dist_le_one {a b : ℕ} (h : Nat.dist a b ≤ 1) : a ≤ b + 1 ∧ b ≤ a + 1 := by
  simp [Nat.dist] at h
  omega

theorem nat_dist_succ_self (a : ℕ) : Nat.dist a (a + 1) ≤ 1 := by
  simp [Nat.dist]

theorem reach_vertical (g : Grid) (r0 r1 : ℕ) (j : Fin g.w)
    (hval : ∀ i : Fin g.h, r0 ≤ i.val → i.val ≤ r1 → g.val i j = some 1) :
    ∀ d : ℕ, ∀ a b : Fin g.h, r0 ≤ a.val → a.val ≤ r1 → b.val ≤ r1 →
      a.val + d = b.val → reach g (a, j) (b, j) := by
  intro d
  induction d with
  | zero =>
    intro a b _ _ _ h3
    have hab : a = b := Fin.ext (by omega)
    rw [hab]
    exact Relation.ReflTransGen.refl
  | succ n ih =>
    intro a b h1 h2 hb h3
    have hmid_lt : a.val + n < g.h := by
      have := b.isLt
      omega
    have hreach : reach g (a, j) ((⟨a.val + n, hmid_lt⟩ : Fin g.h), j) :=
      ih a ⟨a.val + n, hmid_lt⟩ h1 h2 (by simp; omega) rfl
    have hmidval : g.val ⟨a.val + n, hmid_lt⟩ j = some 1 :=
      hval ⟨a.val + n, hmid_lt⟩ (by simp; omega) (by simp; omega)
    have hbval : g.val b j = some 1 := hval b (by omega) hb
    have hlink : link g ((⟨a.val + n, hmid_lt⟩ : Fin g.h), j) (b, j) := by
      refine ⟨⟨?_, ?_, ?_⟩, ?_, ?_⟩
      · intro hcon
        have h4 : (⟨a.val + n, hmid_lt⟩ : Fin g.h) = b := congrArg Prod.fst hcon
        have h5 : a.val + n = b.val := congrArg Fin.val h4
        omega
      · have h6 : (⟨a.val + n, hmid_lt⟩ : Fin g.h).val = a.val + n := rfl
        rw [h6, ← h3]
        exact nat_dist_succ_self (a.val + n)
      · simp [Nat.dist]
      · show gval g (⟨a.val + n, hmid_lt⟩, j) ≠ none
        rw [gval]
        simp only
        rw [hmidval]
        exact fun hx => Option.noConfusion hx
      · show gval g (⟨a.val + n, hmid_lt⟩, j) = gval g (b, j)
        rw [gval, gval]
        simp only
        rw [hmidval, hbval]
    exact hreach.tail hlink

theorem reach_vertical_any (g : Grid) (r0 r1 : ℕ) (j : Fin g.w)
    (hval : ∀ i : Fin g.h, r0 ≤ i.val → i.val ≤ r1 → g.val i j = some 1)
    (a b : Fin g.h) (ha : r0 ≤ a.val ∧ a.val ≤ r1) (hb : r0 ≤ b.val ∧ b.val ≤ r1) :
    reach g (a, j) (b, j) := by
  rcases Nat.le_total a.val b.val with h | h
  · exact reach_vertical g r0 r1 j hval (b.val - a.val) a b ha.1 ha.2 hb.2 (by omega)
  · exact reach_symm g
      (reach_vertical g r0 r1 j hval (a.val - b.val) b a hb.1 hb.2 ha.2 (by omega))

theorem reach_horizontal (g : Grid) (c0 c1 : ℕ) (i : Fin g.h)
    (hval : ∀ j : Fin g.w, c0 ≤ j.val → j.val ≤ c1 → g.val i j = some 1) :
    ∀ d : ℕ, ∀ a b : Fin g.w, c0 ≤ a.val → a.val ≤ c1 → b.val ≤ c1 →
      a.val + d = b.val → reach g (i, a) (i, b) := by
  intro d
  induction d with
  | zero =>
    intro a b _ _ _ h3
    have hab : a = b := Fin.ext (by omega)
    rw [hab]
    exact Relation.ReflTransGen.refl
  | succ n ih =>
    intro a b h1 h2 hb h3
    have hmid_lt : a.val + n < g.w := by
      have := b.isLt
      omega
    have hreach : reach g (i, a) (i, (⟨a.val + n, hmid_lt⟩ : Fin g.w)) :=
      ih a ⟨a.val + n, hmid_lt⟩ h1 h2 (by simp; omega) rfl
    have hmidval : g.val i ⟨a.val + n, hmid_lt⟩ = some 1 :=
      hval ⟨a.val + n, hmid_lt⟩ (by simp; omega) (by simp; omega)
    have hbval : g.val i b = some 1 := hval b (by omega) hb
    have hlink : link g (i, (⟨a.val + n, hmid_lt⟩ : Fin g.w)) (i, b) := by
      refine ⟨⟨?_, ?_, ?_⟩, ?_, ?_⟩
      · intro hcon
        have h4 : (⟨a.val + n, hmid_lt⟩ : Fin g.w) = b := congrArg Prod.snd hcon
        have h5 : a.val + n = b.val := congrArg Fin.val h4
        omega
      · simp [Nat.dist]
      · have h6 : (⟨a.val + n, hmid_lt⟩ : Fin g.w).val = a.val + n := rfl
        rw [h6, ← h3]
        exact nat_dist_succ_self (a.val + n)
      · show gval g (i, ⟨a.val + n, hmid_lt⟩) ≠ none
        rw [gval]
        simp only
        rw [hmidval]
        exact fun hx => Option.noConfusion hx
      · show gval g (i, ⟨a.val + n, hmid_lt⟩) = gval g (i, b)
        rw [gval, gval]
        simp only
        rw [hmidval, hbval]
    exact hreach.tail hlink

theorem reach_horizontal_any (g : Grid) (c0 c1 : ℕ) (i : Fin g.h)
    (hval : ∀ j : Fin g.w, c0 ≤ j.val → j.val ≤ c1 → g.val i j = some 1)
    (a b : Fin g.w) (ha : c0 ≤ a.val ∧ a.val ≤ c1) (hb : c0 ≤ b.val ∧ b.val ≤ c1) :
    reach g (i, a) (i, b) := by
  rcases Nat.le_total a.val b.val with h | h
  · exact reach_horizontal g c0 c1 i hval (b.val - a.val) a b ha.1 ha.2 hb.2 (by omega)
  · exact reach_symm g
      (reach_horizontal g c0 c1 i hval (a.val - b.val) b a hb.1 hb.2 ha.2 (by omega))

/-- Any two cells of an all-`1` axis-aligned rectangle are in the same
region: go along the row first, then along the column. -/
theorem reach_in_rect (g : Grid) (r0 r1 c0 c1 : ℕ)
    (hval : ∀ (i : Fin g.h) (j : Fin g.w),
      r0 ≤ i.val → i.val ≤ r1 → c0 ≤ j.val → j.val ≤ c1 → g.val i j = some 1)
    (p q : Pos g)
    (hp : r0 ≤ p.1.val ∧ p.1.val ≤ r1 ∧ c0 ≤ p.2.val ∧ p.2.val ≤ c1)
    (hq : r0 ≤ q.1.val ∧ q.1.val ≤ r1 ∧ c0 ≤ q.2.val ∧ q.2.val ≤ c1) :
    reach g p q := by
  have h1 : reach g (p.1, p.2) (p.1, q.2) :=
    reach_horizontal_any g c0 c1 p.1
      (fun j hj1 hj2 => hval p.1 j hp.1 hp.2.1 hj1 hj2)
      p.2 q.2 ⟨hp.2.2.1, hp.2.2.2⟩ ⟨hq.2.2.1, hq.2.2.2⟩
  have h2 : reach g (p.1, q.2) (q.1, q.2) :=
    reach_vertical_any g r0 r1 q.2
      (fun i hi1 hi2 => hval i q.2 hi1 hi2 hq.2.2.1 hq.2.2.2)
      p.1 q.1 ⟨hp.1, hp.2.1⟩ ⟨hq.1, hq.2.1⟩
  exact reach_trans g h1 h2



/-- The concrete grid of the C4 example: a 19×100 raster holding one
1200-cell blob (rows 0–11, all 100 columns) and one 50-cell blob
(rows 14–18, columns 0–9), separated by two empty rows. -/
def blobGrid : Grid :=
  ⟨19, 100, fun i j =>
    if i.val < 12 ∨ (14 ≤ i.val ∧ j.val < 10) then some 1 else none⟩

theorem blobGrid_val (i : Fin blobGrid.h) (j : Fin blobGrid.w) :
    blobGrid.val i j =
      if i.val < 12 ∨ (14 ≤ i.val ∧ j.val < 10) then some 1 else none := rfl

theorem blob_reach_big {p q : Pos blobGrid} (hp : p.1.val < 12)
    (h : reach blobGrid p q) : q.1.val < 12 := by
  induction h with
  | refl => exact hp
  | tail hab hbc ih =>
    obtain ⟨⟨hne, hr, hc⟩, hv, he⟩ := hbc
    have hcvalid := he ▸ hv
    rw [gval, blobGrid_val] at hcvalid
    have hrows := (nat_dist_le_one hr).2
    split_ifs at hcvalid with hcond
    · rcases hcond with hlt | hok
      · exact hlt
      · obtain ⟨h14, _⟩ := hok
        omega
    · exact absurd rfl hcvalid

theorem blob_reach_small {p q : Pos blobGrid}
    (hp : 14 ≤ p.1.val ∧ p.2.val < 10) (h : reach blobGrid p q) :
    14 ≤ q.1.val ∧ q.2.val < 10 := by
  induction h with
  | refl => exact hp
  | tail hab hbc ih =>
    obtain ⟨⟨hne, hr, hc⟩, hv, he⟩ := hbc
    have hcvalid := he ▸ hv
    rw [gval, blobGrid_val] at hcvalid
    have hrows := (nat_dist_le_one hr).1
    obtain ⟨h14, _⟩ := ih
    split_ifs at hcvalid with hcond
    · rcases hcond with hlt | hok
      · exact absurd hlt (by omega)
      · exact hok
    · exact absurd rfl hcvalid

theorem component_big (p : Pos blobGrid) (hp : p.1.val < 12) :
    component blobGrid p =
      Finset.univ.filter (fun q : Pos blobGrid => q.1.val < 12) := by
  ext q
  simp only [component, Finset.mem_filter, Finset.mem_univ, true_and]
  constructor
  · exact blob_reach_big hp
  · intro hq
    refine reach_in_rect blobGrid 0 11 0 99 ?_ p q ?_ ?_
    · intro i j h1 h2 h3 h4
      rw [blobGrid_val, if_pos (Or.inl (by omega))]
    · have hc : p.2.val < 100 := p.2.isLt
      exact ⟨by omega, by omega, by omega, by omega⟩
    · have hc : q.2.val < 100 := q.2.isLt
      exact ⟨by omega, by omega, by omega, by omega⟩

theorem component_small (p : Pos blobGrid) (hp : 14 ≤ p.1.val ∧ p.2.val < 10) :
    component blobGrid p =
      Finset.univ.filter (fun q : Pos blobGrid => 14 ≤ q.1.val ∧ q.2.val < 10) := by
  ext q
  simp only [component, Finset.mem_filter, Finset.mem_univ, true_and]
  constructor
  · exact blob_reach_small hp
  · intro hq
    refine reach_in_rect blobGrid 14 18 0 9 ?_ p q ?_ ?_
    · intro i j h1 h2 h3 h4
      rw [blobGrid_val, if_pos (Or.inr ⟨by omega, by omega⟩)]
    · have hr : p.1.val < 19 := p.1.isLt
      exact ⟨by omega, by omega, by omega, by omega⟩
    · have hr : q.1.val < 19 := q.1.isLt
      exact ⟨by omega, by omega, by omega, by omega⟩

theorem card_big_component :
    (Finset.univ.filter (fun q : Pos blobGrid => q.1.val < 12)).card = 1200 := by
  have hprod : (Finset.univ.filter (fun q : Pos blobGrid => q.1.val < 12)) =
      (Finset.univ.filter (fun a : Fin 19 => a.val < 12)) ×ˢ
        (Finset.univ : Finset (Fin 100)) := by
    ext q
    simp [Finset.mem_product]
  rw [hprod, Finset.card_product]
  have h1 : (Finset.univ.filter (fun a : Fin 19 => a.val < 12)).card = 12 := by decide
  have h2 : (Finset.univ : Finset (Fin 100)).card = 100 := by simp
  rw [h1, h2]

theorem card_small_component :
    (Finset.univ.filter
      (fun q : Pos blobGrid => 14 ≤ q.1.val ∧ q.2.val < 10)).card = 50 := by
  have hprod : (Finset.univ.filter
        (fun q : Pos blobGrid => 14 ≤ q.1.val ∧ q.2.val < 10)) =
      (Finset.univ.filter (fun a : Fin 19 => 14 ≤ a.val)) ×ˢ
        (Finset.univ.filter (fun b : Fin 100 => b.val < 10)) := by
    ext q
    simp [Finset.mem_product, and_comm]
  rw [hprod, Finset.card_product]
  have h1 : (Finset.univ.filter (fun a : Fin 19 => 14 ≤ a.val)).card = 5 := by decide
  have h2 : (Finset.univ.filter (fun b : Fin 100 => b.val < 10)).card = 10 := by decide
  rw [h1, h2]

theorem blob_filter_result :
    ∀ (i : Fin blobGrid.h) (j : Fin blobGrid.w),
      (eliminate_isolated_pixels blobGrid).val i j =
        if i.val < 12 then some 1 else none := by
  intro i j
  unfold eliminate_isolated_pixels
  rw [eliminateWith_val]
  by_cases hbig : i.val < 12
  · have hval : blobGrid.val i j = some 1 := by
      rw [blobGrid_val, if_pos (Or.inl hbig)]
    rw [hval]
    show (if regionCount blobGrid (i, j) < 1000 then none else some 1) = _
    have hrc : regionCount blobGrid (i, j) = 1200 := by
      rw [regionCount_eq_card_component, component_big (i, j) hbig,
        card_big_component]
    rw [hrc, if_neg (by omega), if_pos hbig]
  · by_cases hsmall : 14 ≤ i.val ∧ j.val < 10
    · have hval : blobGrid.val i j = some 1 := by
        rw [blobGrid_val, if_pos (Or.inr hsmall)]
      rw [hval]
      show (if regionCount blobGrid (i, j) < 1000 then none else some 1) = _
      have hrc : regionCount blobGrid (i, j) = 50 := by
        rw [regionCount_eq_card_component, component_small (i, j) hsmall,
          card_small_component]
      rw [hrc, if_pos (by omega), if_neg hbig]
    · have hval : blobGrid.val i j = none := by
        rw [blobGrid_val, if_neg (not_or.mpr ⟨hbig, hsmall⟩)]
      rw [hval]
      show (none : Option ℤ) = _
      rw [if_neg hbig]

/-- C4: the filter keeps a cell at value `1` exactly when the cell is a
`1`-cell whose 8-connected component has at least `min_component_size`
cells, and nulls it exactly when it is NoData or its component is too
small; and on the concrete 19×100 grid holding one 1200-cell blob and one
50-cell blob with `min_component_size = 1000`, the output retains exactly
the 1200-cell blob. -/
theorem connected_component_filter_spec :
    (∀ (m : ℕ) (g : Grid), Binary g → ∀ (i : Fin g.h) (j : Fin g.w),
      ((eliminateIsolatedPixelsWith m g).val i j = some 1 ↔
        g.val i j = some 1 ∧ m ≤ (component g (i, j)).card) ∧
      ((eliminateIsolatedPixelsWith m g).val i j = none ↔
        g.val i j = none ∨ (component g (i, j)).card < m)) ∧
    (∀ (i : Fin blobGrid.h) (j : Fin blobGrid.w),
      (eliminate_isolated_pixels blobGrid).val i j =
        if i.val < 12 then some 1 else none) := by
  refine ⟨?_, blob_filter_result⟩
  intro m g hb i j
  rcases hb i j with hv | hv
  · have hL : (eliminateIsolatedPixelsWith m g).val i j = none := by
      rw [eliminateWith_val, hv]
    rw [hL, hv]
    constructor
    · simp
    · simp
  · have hrc := regionCount_eq_card_component g (i, j)
    by_cases hc : regionCount g (i, j) < m
    · have hL : (eliminateIsolatedPixelsWith m g).val i j = none := by
        rw [eliminateWith_val, hv]
        exact if_pos hc
      have hcard : (component g (i, j)).card < m := by omega
      constructor
      · constructor
        · intro h
          rw [hL] at h
          exact Option.noConfusion h
        · intro h
          have := h.2
          omega
      · constructor
        · intro _
          exact Or.inr hcard
        · intro _
          exact hL
    · push_neg at hc
      have hL : (eliminateIsolatedPixelsWith m g).val i j = some 1 := by
        rw [eliminateWith_val, hv]
        exact if_neg (by omega)
      have hcard : m ≤ (component g (i, j)).card := by omega
      constructor
      · constructor
        · intro _
          exact ⟨hv, hcard⟩
        · intro _
          exact hL
      · constructor
        · intro h
          rw [hL] at h
          exact Option.noConfusion h
        · intro h
          rcases h with h | h
          · rw [hv] at h
            exact Option.noConfusion h
          · exact absurd h (by omega)

/-- Witness for C4 on the one-cell grid with `min_component_size = 1`. -/
theorem connected_component_filter_spec_witness :
    (eliminateIsolatedPixelsWith 1 gUnit).val ⟨0, by decide⟩ ⟨0, by decide⟩ = some 1 :=
  ((connected_component_filter_spec.1 1 gUnit (by decide)
    ⟨0, by decide⟩ ⟨0, by decide⟩).1).mpr ⟨rfl, by decide⟩
